import Mathlib

/-!
Verification of the report data-aggregation and rendering pipeline of the
jtj repository: stock deduplication for the recommended-stocks sidebar,
category color classification, HTML tag stripping, date formatting, and the
empty-state / degraded-default rendering behavior of the components.

Each definition is a shallow embedding of the corresponding TypeScript
function; definitions named after spec-side formulations are marked as such.
-/

namespace Jtj

/-! ## Data model

Shallow embedding of the entities used by the rendering components.
`Stock` carries the `id` used for deduplication plus a name so that distinct
records with equal ids are representable.  `Industry` is the shape consumed
by `RecommendedStocksSidebar` and `ImpactedIndustriesGrid`.
-/

structure Stock where
  id : Nat
  stock_name : String
deriving DecidableEq, Repr

structure Industry where
  id : Nat
  industry_name : Option String
  impact_description : Option String
  stocks : List Stock
deriving DecidableEq, Repr

/-! ## Stock deduplication (recommended-stocks-sidebar.tsx, lines 13-14)

The component computes
`allStocks = industries.flatMap((industry) => industry.stocks)` and
`uniqueStocks = allStocks.filter((stock, index, self) =>
   index === self.findIndex((s) => s.id === stock.id))`.
`dedupById` is a direct transliteration of the `filter`/`findIndex`
expression: JavaScript `filter` passes the element, its index and the whole
array to the callback, which is modelled by filtering the enumerated list.
-/

def dedupById (l : List Stock) : List Stock :=
  (l.enum.filter (fun p => l.findIdx (fun s => s.id == p.2.id) == p.1)).map (fun p => p.2)

/-- Spec-side formulation of dedup-by-id: scan left to right keeping a set of
already-seen ids, keep exactly the first occurrence of each id. -/
def keepFirst : List Stock → List Nat → List Stock
  | [], _ => []
  | s :: rest, seen =>
    if s.id ∈ seen then keepFirst rest seen else s :: keepFirst rest (s.id :: seen)

/-- Spec-side formulation on bare ids: first occurrence of each id survives,
in first-occurrence order. -/
def firstOccIds : List Nat → List Nat → List Nat
  | [], _ => []
  | i :: rest, seen =>
    if i ∈ seen then firstOccIds rest seen else i :: firstOccIds rest (i :: seen)

theorem keepFirst_congr {l : List Stock} {s₁ s₂ : List Nat}
    (h : ∀ i, i ∈ s₁ ↔ i ∈ s₂) : keepFirst l s₁ = keepFirst l s₂ := by
  induction l generalizing s₁ s₂ with
  | nil => rfl
  | cons a t ih =>
    simp only [keepFirst]
    by_cases ha : a.id ∈ s₁
    · rw [if_pos ha, if_pos ((h a.id).mp ha), ih h]
    · rw [if_neg ha, if_neg (fun hc => ha ((h a.id).mpr hc))]
      congr 1
      exact ih (fun i => by simp [h i])

theorem enumFilter_eq_keepFirst (l : List Stock) : ∀ (n : Nat) (excl : List Nat),
    ((List.enumFrom n l).filter
      (fun p => decide (p.2.id ∉ excl) &&
        (l.findIdx (fun s => s.id == p.2.id) + n == p.1))).map (fun p => p.2)
      = keepFirst l excl := by
  induction l with
  | nil => intro n excl; rfl
  | cons a t ih =>
    intro n excl
    rw [List.enumFrom_cons, List.filter_cons]
    have hhead : ((a :: t).findIdx (fun s => s.id == a.id) + n == n) = true := by
      simp [List.findIdx_cons]
    have htail :
        (List.enumFrom (n + 1) t).filter
          (fun p => decide (p.2.id ∉ excl) &&
            ((a :: t).findIdx (fun s => s.id == p.2.id) + n == p.1))
        = (List.enumFrom (n + 1) t).filter
          (fun p => decide (p.2.id ∉ (a.id :: excl)) &&
            (t.findIdx (fun s => s.id == p.2.id) + (n + 1) == p.1)) := by
      apply List.filter_congr
      intro p hp
      have hge : n + 1 ≤ p.1 := List.le_fst_of_mem_enumFrom hp
      by_cases hid : a.id = p.2.id
      · have h0 : (a :: t).findIdx (fun s => s.id == p.2.id) = 0 := by
          simp [List.findIdx_cons, hid]
        have hne : (0 + n == p.1) = false := by
          simp only [Nat.zero_add, beq_eq_false_iff_ne]
          omega
        have hR : decide (p.2.id ∉ (a.id :: excl)) = false := by
          simp only [decide_eq_false_iff_not, not_not]
          simp [hid]
        simp only [h0, hne, hR, Bool.and_false, Bool.false_and]
      · have hbeq : (a.id == p.2.id) = false := beq_eq_false_iff_ne.mpr hid
        have h1 : (a :: t).findIdx (fun s => s.id == p.2.id)
            = t.findIdx (fun s => s.id == p.2.id) + 1 := by
          simp [List.findIdx_cons, hbeq]
        have harith : (t.findIdx (fun s => s.id == p.2.id) + 1 + n == p.1)
            = (t.findIdx (fun s => s.id == p.2.id) + (n + 1) == p.1) := by
          congr 1
          omega
        have hmem : (p.2.id ∉ (a.id :: excl)) ↔ (p.2.id ∉ excl) := by
          simp only [List.mem_cons, not_or]
          constructor
          · exact fun hx => hx.2
          · exact fun hx => ⟨fun hc => hid (hc.symm), hx⟩
        rw [h1, harith]
        simp only [decide_eq_decide.mpr hmem]
    by_cases hmem : a.id ∈ excl
    · have hdec : decide (a.id ∉ excl) = false := by
        simp only [decide_eq_false_iff_not, not_not]
        exact hmem
      rw [if_neg ?hcond, htail, ih (n + 1) (a.id :: excl)]
      case hcond =>
        intro hc
        simp only [hdec, Bool.false_and, Bool.false_eq_true] at hc
      rw [keepFirst, if_pos hmem]
      exact keepFirst_congr (fun i => by
        simp only [List.mem_cons]
        constructor
        · rintro (rfl | hi) <;> [exact hmem; exact hi]
        · exact fun hi => Or.inr hi)
    · have : (decide (a.id ∉ excl) &&
          ((a :: t).findIdx (fun s => s.id == a.id) + n == n)) = true := by
        simp [hmem, hhead]
      rw [if_pos this, List.map_cons, htail, ih (n + 1) (a.id :: excl)]
      rw [keepFirst, if_neg hmem]

theorem dedupById_eq_keepFirst (l : List Stock) : dedupById l = keepFirst l [] := by
  have h := enumFilter_eq_keepFirst l 0 []
  unfold dedupById
  rw [show l.enum = List.enumFrom 0 l from rfl]
  rw [← h]
  congr 1

/-! Properties of `keepFirst`. -/

theorem keepFirst_length_le (l : List Stock) : ∀ seen, (keepFirst l seen).length ≤ l.length := by
  induction l with
  | nil => intro seen; simp [keepFirst]
  | cons a t ih =>
    intro seen
    rw [keepFirst]
    by_cases h : a.id ∈ seen
    · rw [if_pos h]
      exact Nat.le_trans (ih seen) (Nat.le_succ _)
    · rw [if_neg h, List.length_cons, List.length_cons]
      exact Nat.succ_le_succ (ih _)

theorem mem_keepFirst_ids (l : List Stock) :
    ∀ seen i, i ∈ (keepFirst l seen).map (fun s => s.id) ↔
      i ∈ l.map (fun s => s.id) ∧ i ∉ seen := by
  induction l with
  | nil => intro seen i; simp [keepFirst]
  | cons a t ih =>
    intro seen i
    rw [keepFirst]
    by_cases h : a.id ∈ seen
    · rw [if_pos h]
      rw [ih seen i]
      simp only [List.map_cons, List.mem_cons]
      constructor
      · exact fun hx => ⟨Or.inr hx.1, hx.2⟩
      · rintro ⟨(rfl | hi), hs⟩
        · exact absurd h hs
        · exact ⟨hi, hs⟩
    · rw [if_neg h]
      simp only [List.map_cons, List.mem_cons, ih (a.id :: seen) i, List.mem_cons, not_or]
      constructor
      · rintro (rfl | ⟨hi, hne, hs⟩)
        · exact ⟨Or.inl rfl, h⟩
        · exact ⟨Or.inr hi, hs⟩
      · rintro ⟨(rfl | hi), hs⟩
        · exact Or.inl rfl
        · by_cases hia : i = a.id
          · exact Or.inl hia
          · exact Or.inr ⟨hi, hia, hs⟩

theorem keepFirst_ids_nodup (l : List Stock) :
    ∀ seen, ((keepFirst l seen).map (fun s => s.id)).Nodup := by
  induction l with
  | nil => intro seen; simp [keepFirst]
  | cons a t ih =>
    intro seen
    rw [keepFirst]
    by_cases h : a.id ∈ seen
    · rw [if_pos h]; exact ih seen
    · rw [if_neg h]
      rw [List.map_cons, List.nodup_cons]
      refine ⟨fun hc => ?_, ih _⟩
      have := (mem_keepFirst_ids t (a.id :: seen) a.id).mp hc
      exact this.2 (List.mem_cons_self _ _)

theorem keepFirst_map_ids (l : List Stock) :
    ∀ seen, (keepFirst l seen).map (fun s => s.id)
      = firstOccIds (l.map (fun s => s.id)) seen := by
  induction l with
  | nil => intro seen; rfl
  | cons a t ih =>
    intro seen
    rw [keepFirst, List.map_cons, firstOccIds]
    by_cases h : a.id ∈ seen
    · rw [if_pos h, if_pos h, ih seen]
    · rw [if_neg h, if_neg h, List.map_cons, ih (a.id :: seen)]

theorem keepFirst_find (l : List Stock) :
    ∀ seen s, s ∈ keepFirst l seen →
      List.find? (fun t => t.id == s.id) l = some s := by
  induction l with
  | nil => intro seen s hs; simp [keepFirst] at hs
  | cons a t ih =>
    intro seen s hs
    rw [keepFirst] at hs
    by_cases h : a.id ∈ seen
    · rw [if_pos h] at hs
      have hid : s.id ∉ seen := by
        have := (mem_keepFirst_ids t seen s.id).mp (List.mem_map_of_mem (fun x => x.id) hs)
        exact this.2
      have hne : (a.id == s.id) = false := by
        simp only [beq_eq_false_iff_ne]
        exact fun hc => hid (hc ▸ h)
      rw [List.find?_cons, hne]
      exact ih seen s hs
    · rw [if_neg h] at hs
      rcases List.mem_cons.mp hs with rfl | hs'
      · rw [List.find?_cons, beq_self_eq_true]
      · have hid : s.id ∉ (a.id :: seen) := by
          have := (mem_keepFirst_ids t (a.id :: seen) s.id).mp
            (List.mem_map_of_mem (fun x => x.id) hs')
          exact this.2
        have hne : (a.id == s.id) = false := by
          simp only [beq_eq_false_iff_ne]
          exact fun hc => hid (by simp [hc])
        rw [List.find?_cons, hne]
        exact ih (a.id :: seen) s hs'

theorem keepFirst_of_nodup (l : List Stock) :
    ∀ seen, (l.map (fun s => s.id)).Nodup →
      (∀ i ∈ l.map (fun s => s.id), i ∉ seen) → keepFirst l seen = l := by
  induction l with
  | nil => intro seen _ _; rfl
  | cons a t ih =>
    intro seen hnd hdisj
    rw [keepFirst, if_neg (hdisj a.id (by simp))]
    congr 1
    rw [List.map_cons, List.nodup_cons] at hnd
    refine ih (a.id :: seen) hnd.2 ?_
    intro i hi
    simp only [List.mem_cons, not_or]
    exact ⟨fun hc => hnd.1 (hc ▸ hi), hdisj i (by simp [hi])⟩

/-! ## Sidebar and grid components -/

/-- `allStocks` from `RecommendedStocksSidebar`:
`industries.flatMap((industry) => industry.stocks)`. -/
def allStocks (industries : List Industry) : List Stock :=
  industries.flatMap (fun industry => industry.stocks)

/-- `uniqueStocks` from `RecommendedStocksSidebar`. -/
def uniqueStocks (industries : List Industry) : List Stock :=
  dedupById (allStocks industries)

/-- Render result of `RecommendedStocksSidebar`: the component returns `null`
(no rendered output, modelled as `none`) when `uniqueStocks.length === 0`,
otherwise renders the deduplicated stock cards. -/
def recommendedStocksSidebar (industries : List Industry) : Option (List Stock) :=
  if (uniqueStocks industries).length = 0 then none
  else some (uniqueStocks industries)

/-- One rendered card of the impacted-industries grid: the heading shows
`industry.industry_name` and the body optionally shows
`industry.impact_description`. -/
structure IndustryCard where
  name : Option String
  desc : Option String
deriving DecidableEq, Repr

/-- Render result of `ImpactedIndustriesGrid`: `null` (modelled `none`) when
`industries.length === 0`, otherwise one card per industry of the input, in
order, with no filtering. -/
def impactedIndustriesGrid (industries : List Industry) : Option (List IndustryCard) :=
  if industries.length = 0 then none
  else some (industries.map (fun i => ⟨i.industry_name, i.impact_description⟩))

/-! ## ReportCard data (report list item with metadata) -/

/-- One entry of `report_metadata.industries` as consumed by `ReportCard`. -/
structure MetaIndustry where
  industry_name : Option String
deriving DecidableEq, Repr

structure ReportMetadata where
  industries : Option (List MetaIndustry)
deriving DecidableEq, Repr

structure ReportListItem where
  id : Nat
  title : String
  summary : Option String
  analysis_date : String
  industry_count : Nat
  report_metadata : Option ReportMetadata
deriving DecidableEq, Repr

/-- `report.report_metadata?.industries || []` from `ReportCard`: optional
chaining yields the industries list, defaulting to the empty list. -/
def metadataIndustries (r : ReportListItem) : List MetaIndustry :=
  match r.report_metadata with
  | none => []
  | some m =>
    match m.industries with
    | none => []
    | some l => l

/-- JavaScript truthiness of an optional string: `null`/`undefined` and the
empty string are falsy, every other string is truthy. -/
def truthyName : Option String → Bool
  | none => false
  | some s => s != ""

/-- `industryNames` from `ReportCard`:
`industries.map((ind) => ind.industry_name).filter(Boolean)`. -/
def industryNames (r : ReportListItem) : List (Option String) :=
  ((metadataIndustries r).map (fun i => i.industry_name)).filter truthyName

/-- Spec-side formulation of name extraction: the non-null, non-empty
`industry_name` values in original industry order. -/
def nonEmptyNames (l : List MetaIndustry) : List String :=
  l.filterMap (fun i =>
    match i.industry_name with
    | none => none
    | some s => if s = "" then none else some s)

/-- The category tags rendered by `ReportCard` (lines 103-116):
when at least one name exists, `industryNames.slice(0, 3)` is rendered,
otherwise the whole tag section is absent. -/
def renderedTags (r : ReportListItem) : List (Option String) :=
  if (industryNames r).length > 0 then (industryNames r).take 3 else []

/-- The `+{n-3}` remainder indicator rendered by `ReportCard`: present
exactly when more than three names were extracted. -/
def renderedOverflow (r : ReportListItem) : Option Nat :=
  if (industryNames r).length > 0 then
    if (industryNames r).length > 3 then some ((industryNames r).length - 3) else none
  else none

/-! ## Category color classification (`getCategoryColor`) -/

/-- Model of JavaScript `toLowerCase` restricted to the character-wise case
mapping (identity on the Korean keywords involved). -/
def toLowerStr (s : String) : String := String.mk (s.toList.map Char.toLower)

def hasPrefixChars : List Char → List Char → Bool
  | [], _ => true
  | _ :: _, [] => false
  | p :: ps, c :: cs => p == c && hasPrefixChars ps cs

/-- Model of JavaScript `String.prototype.includes`: does `pat` occur as a
contiguous substring of the second argument? -/
def containsChars (pat : List Char) : List Char → Bool
  | [] => hasPrefixChars pat []
  | c :: cs => hasPrefixChars pat (c :: cs) || containsChars pat cs

def includesStr (s pat : String) : Bool := containsChars pat.toList s.toList

/-- `getCategoryColor` from `ReportCard` (lines 13-27): null/empty input is
slate; otherwise lowercase the candidate and test the fixed keyword rules in
order, first match wins. -/
def getCategoryColor : Option String → String
  | none => "bg-slate-100 text-slate-700"
  | some category =>
    if category = "" then "bg-slate-100 text-slate-700"
    else
      let categoryLower := toLowerStr category
      if includesStr categoryLower "반도체" || includesStr categoryLower "2차전지" then
        "bg-green-100 text-green-700"
      else if includesStr categoryLower "금융" then "bg-orange-100 text-orange-700"
      else if includesStr categoryLower "게임" then "bg-red-100 text-red-700"
      else "bg-slate-100 text-slate-700"

/-- Case-insensitive containment as the spec words it: lowercase both the
candidate and the keyword before the substring test. -/
def ciIncludes (s pat : String) : Bool := includesStr (toLowerStr s) (toLowerStr pat)

/-- Spec-side formulation of the classification rule list. -/
def classifySpec : Option String → String
  | none => "bg-slate-100 text-slate-700"
  | some c =>
    if c = "" then "bg-slate-100 text-slate-700"
    else if ciIncludes c "반도체" || ciIncludes c "2차전지" then "bg-green-100 text-green-700"
    else if ciIncludes c "금융" then "bg-orange-100 text-orange-700"
    else if ciIncludes c "게임" then "bg-red-100 text-red-700"
    else "bg-slate-100 text-slate-700"

/-! ## HTML tag stripping (`stripHtmlTags`) -/

/-- One-pass automaton equivalent of the global regex replace
`html.replace(/<[^>]*>/g, "")`: outside a candidate tag (`pending = none`)
characters are copied and a `<` opens a candidate; inside a candidate
(`pending = some buffered`) a `>` closes and discards the whole `<...>` span
(the regex match, running to the first `>`), while end of input with an
unclosed candidate emits the buffered characters verbatim (the regex finds
no match there, since no `>` remains). -/
def rtAux : Option (List Char) → List Char → List Char
  | none, [] => []
  | some pending, [] => pending.reverse
  | none, c :: rest => if c = '<' then rtAux (some [c]) rest else c :: rtAux none rest
  | some pending, c :: rest =>
    if c = '>' then rtAux none rest else rtAux (some (c :: pending)) rest

/-- Model of `html.replace(/<[^>]*>/g, "")`. -/
def removeTags (l : List Char) : List Char := rtAux none l

/-- Model of JavaScript `String.prototype.trim`: drop leading and trailing
whitespace. -/
def trimChars (l : List Char) : List Char :=
  ((l.dropWhile Char.isWhitespace).reverse.dropWhile Char.isWhitespace).reverse

/-- `stripHtmlTags` from `ReportCard` (lines 43-46): falsy input (null or
empty string) yields the empty string, otherwise tags are removed and the
result trimmed. -/
def stripHtmlTags : Option String → String
  | none => ""
  | some html =>
    if html = "" then ""
    else String.mk (trimChars (removeTags html.toList))

/-- Well-formed tagged text: alternating clean text and tag bodies, rendered
as `txt₀ <tag₀> txt₁ <tag₁> ... last`. -/
def renderTagged : List (String × String) → String → String
  | [], last => last
  | (txt, tag) :: rest, last => txt ++ "<" ++ tag ++ ">" ++ renderTagged rest last

/-- The concatenation of the text segments of a tagged text. -/
def textConcat (segs : List (String × String)) (last : String) : String :=
  (segs.map (fun p => p.1)).foldr (fun a b => a ++ b) last

/-! ## Date formatting (`formatDate`)

`formatDate` calls `new Date(dateString)` and then the local-timezone
accessors `getFullYear`, `getMonth`, `getDate`.  The embedding parses the
ISO-8601 forms accepted here (`YYYY-MM-DD`, treated as UTC per ECMA-262, and
`YYYY-MM-DDTHH:MM[:SS]Z`) into a UTC calendar date plus time of day, and
models the runtime's local timezone as an explicit offset in minutes: the
local calendar date is the UTC date shifted by however many day boundaries
`hh:mm + offset` crosses. -/

structure CalDate where
  year : Nat
  month : Nat
  day : Nat
deriving DecidableEq, Repr

def isLeap (y : Nat) : Bool := (y % 4 == 0 && y % 100 != 0) || y % 400 == 0

def daysInMonth (y m : Nat) : Nat :=
  if m = 2 then (if isLeap y then 29 else 28)
  else if m = 4 ∨ m = 6 ∨ m = 9 ∨ m = 11 then 30
  else 31

def nextDay (d : CalDate) : CalDate :=
  if d.day < daysInMonth d.year d.month then ⟨d.year, d.month, d.day + 1⟩
  else if d.month < 12 then ⟨d.year, d.month + 1, 1⟩
  else ⟨d.year + 1, 1, 1⟩

def prevDay (d : CalDate) : CalDate :=
  if 1 < d.day then ⟨d.year, d.month, d.day - 1⟩
  else if 1 < d.month then ⟨d.year, d.month - 1, daysInMonth d.year (d.month - 1)⟩
  else ⟨d.year - 1, 12, 31⟩

def addDaysN : CalDate → Nat → CalDate
  | d, 0 => d
  | d, Nat.succ k => addDaysN (nextDay d) k

def subDaysN : CalDate → Nat → CalDate
  | d, 0 => d
  | d, Nat.succ k => subDaysN (prevDay d) k

def shiftDays (d : CalDate) (k : Int) : CalDate :=
  if 0 ≤ k then addDaysN d k.toNat else subDaysN d (-k).toNat

def splitOnChar (c : Char) (l : List Char) : List (List Char) :=
  l.foldr
    (fun ch acc =>
      if ch = c then [] :: acc
      else
        match acc with
        | [] => [[ch]]
        | g :: gs => (ch :: g) :: gs)
    [[]]

def digitsToNat? (l : List Char) : Option Nat :=
  if l = [] ∨ ¬ l.all Char.isDigit then none
  else some (l.foldl (fun acc c => acc * 10 + (c.toNat - 48)) 0)

def parseNatLen (k : Nat) (l : List Char) : Option Nat :=
  if l.length = k then digitsToNat? l else none

def parseDatePart (l : List Char) : Option CalDate :=
  match splitOnChar '-' l with
  | [y, m, d] =>
    match parseNatLen 4 y, parseNatLen 2 m, parseNatLen 2 d with
    | some yn, some mn, some dn =>
      if 1 ≤ mn ∧ mn ≤ 12 ∧ 1 ≤ dn ∧ dn ≤ daysInMonth yn mn then some ⟨yn, mn, dn⟩
      else none
    | _, _, _ => none
  | _ => none

def parseTimePart (l : List Char) : Option (Nat × Nat) :=
  match splitOnChar ':' l with
  | [h, m] =>
    match parseNatLen 2 h, parseNatLen 2 m with
    | some hn, some mn => if hn ≤ 23 ∧ mn ≤ 59 then some (hn, mn) else none
    | _, _ => none
  | [h, m, s] =>
    match parseNatLen 2 h, parseNatLen 2 m, parseNatLen 2 s with
    | some hn, some mn, some sn =>
      if hn ≤ 23 ∧ mn ≤ 59 ∧ sn ≤ 59 then some (hn, mn) else none
    | _, _, _ => none
  | _ => none

/-- Parse the accepted ISO-8601 forms into the UTC calendar date and the UTC
time of day in hours and minutes (seconds do not influence the date). -/
def parseISO (s : String) : Option (CalDate × Nat × Nat) :=
  match splitOnChar 'T' s.toList with
  | [d] => (parseDatePart d).map (fun cd => (cd, 0, 0))
  | [d, t] =>
    match t.reverse with
    | 'Z' :: tr =>
      match parseDatePart d, parseTimePart tr.reverse with
      | some cd, some hm => some (cd, hm)
      | _, _ => none
    | _ => none
  | _ => none

def padStart2 (n : Nat) : String :=
  if n < 10 then "0" ++ toString n else toString n

/-- The template interpolation of `formatDate`:
`year + "." + pad(month) + "." + pad(day)`. -/
def formatCal (d : CalDate) : String :=
  toString d.year ++ "." ++ padStart2 d.month ++ "." ++ padStart2 d.day

/-- `formatDate` from `ReportCard` (lines 32-38), with the runtime's local
timezone offset (in minutes east of UTC) as an explicit parameter; inputs
outside the modelled ISO subset yield `none`. -/
def formatDate (s : String) (tzOffsetMin : Int) : Option String :=
  match parseISO s with
  | none => none
  | some (d, hh, mm) =>
    let total : Int := (hh : Int) * 60 + (mm : Int) + tzOffsetMin
    some (formatCal (shiftDays d (total.fdiv 1440)))

/-! ## Home page composition (page.tsx)

`Home` issues `getNewsCount()` and `getSubscriberCount()` in parallel via
`Promise.all`, attaching `.catch(() => 0)` to each, and then always renders
the page with the two counts.  The fetch outcomes are modelled as `Except`
values supplied by the external API clients; `none` would model an aborted
render, which never occurs. -/

def catchZero : Except String Nat → Nat
  | .ok n => n
  | .error _ => 0

structure HomePage where
  newsCount : Nat
  subscriberCount : Nat
deriving DecidableEq, Repr

def homeRender (newsRes subRes : Except String Nat) : Option HomePage :=
  some { newsCount := catchZero newsRes, subscriberCount := catchZero subRes }

/-! ## Claim theorems -/

/-- Claim C1: for every sequence of industries, the sidebar's deduplicated
stock list is the flattening of their stocks (industry-then-stock order)
with, for each distinct stock id, only the first occurrence kept: the output
is no longer than the input, its ids are pairwise distinct and exactly the
ids of the input, its id sequence is the first-occurrence order, every
output entry is the first input record bearing its id, and input ids
`[1, 2, 1]` yield output ids `[1, 2]`. -/
theorem c1_sidebar_dedup :
    (∀ industries : List Industry,
      (uniqueStocks industries).length ≤ (allStocks industries).length ∧
      ((uniqueStocks industries).map (fun s => s.id)).Nodup ∧
      (∀ i, i ∈ (uniqueStocks industries).map (fun s => s.id) ↔
        i ∈ (allStocks industries).map (fun s => s.id)) ∧
      (uniqueStocks industries).map (fun s => s.id)
        = firstOccIds ((allStocks industries).map (fun s => s.id)) [] ∧
      (∀ s, s ∈ uniqueStocks industries →
        (allStocks industries).find? (fun t => t.id == s.id) = some s)) ∧
    (uniqueStocks
        [⟨1, some "A", none, [⟨1, "x"⟩, ⟨2, "y"⟩]⟩,
         ⟨2, some "B", none, [⟨1, "z"⟩]⟩]).map (fun s => s.id) = [1, 2] := by
  constructor
  · intro industries
    have he : uniqueStocks industries = keepFirst (allStocks industries) [] :=
      dedupById_eq_keepFirst (allStocks industries)
    rw [he]
    refine ⟨keepFirst_length_le _ _, keepFirst_ids_nodup _ _, ?_, keepFirst_map_ids _ _,
      keepFirst_find _ _⟩
    intro i
    rw [mem_keepFirst_ids]
    simp
  · decide

theorem c1_sidebar_dedup_witness :
    (allStocks
        [⟨1, some "A", none, [⟨1, "x"⟩, ⟨2, "y"⟩]⟩,
         ⟨2, some "B", none, [⟨1, "z"⟩]⟩]).find?
      (fun t => t.id == (Stock.mk 1 "x").id) = some (Stock.mk 1 "x") :=
  (c1_sidebar_dedup.1
      [⟨1, some "A", none, [⟨1, "x"⟩, ⟨2, "y"⟩]⟩,
       ⟨2, some "B", none, [⟨1, "z"⟩]⟩]).2.2.2.2
    (Stock.mk 1 "x") (by decide)

/-- Claim C5: the stock deduplication is idempotent — applying the
dedup-by-id function to its own output returns that output unchanged. -/
theorem c5_dedup_idempotent : ∀ l : List Stock, dedupById (dedupById l) = dedupById l := by
  intro l
  rw [dedupById_eq_keepFirst l, dedupById_eq_keepFirst (keepFirst l [])]
  exact keepFirst_of_nodup _ [] (keepFirst_ids_nodup l [])
    (fun i _ => List.not_mem_nil i)

/-- Claim C7: during home-page composition, a failure of either auxiliary
count fetch is caught locally and replaced by the safe default 0, and the
page still renders (`homeRender` always yields a page; an auxiliary failure
never aborts rendering). -/
theorem c7_degraded_default : ∀ (newsRes subRes : Except String Nat),
    (∃ page, homeRender newsRes subRes = some page) ∧
    (∀ e, newsRes = Except.error e →
      homeRender newsRes subRes = some ⟨0, catchZero subRes⟩) ∧
    (∀ e, subRes = Except.error e →
      homeRender newsRes subRes = some ⟨catchZero newsRes, 0⟩) := by
  intro r1 r2
  refine ⟨⟨_, rfl⟩, ?_, ?_⟩
  · rintro e rfl
    rfl
  · rintro e rfl
    rfl

theorem c7_degraded_default_witness :
    homeRender (Except.error "boom") (Except.ok 5) = some ⟨0, 5⟩ :=
  (c7_degraded_default (Except.error "boom") (Except.ok 5)).2.1 "boom" rfl

/-- Claim C8: empty input collections render as nothing rather than as an
error — a report with zero industries makes the industries grid render the
empty region, and a deduplicated stock list of length zero makes the sidebar
render the empty region. -/
theorem c8_empty_state :
    (∀ industries : List Industry,
      industries = [] → impactedIndustriesGrid industries = none) ∧
    (∀ industries : List Industry,
      (uniqueStocks industries).length = 0 → recommendedStocksSidebar industries = none) := by
  constructor
  · rintro _ rfl
    rfl
  · intro industries h
    unfold recommendedStocksSidebar
    rw [if_pos h]

theorem c8_empty_state_witness :
    impactedIndustriesGrid [] = none ∧ recommendedStocksSidebar [] = none :=
  ⟨c8_empty_state.1 [] rfl, c8_empty_state.2 [] (by decide)⟩

theorem filter_truthy_eq_nonEmpty (l : List MetaIndustry) :
    (l.map (fun i => i.industry_name)).filter truthyName = (nonEmptyNames l).map some := by
  induction l with
  | nil => rfl
  | cons i t ih =>
    cases hn : i.industry_name with
    | none =>
      simp only [List.map_cons, List.filter_cons, hn, truthyName, Bool.false_eq_true, if_false,
        nonEmptyNames, List.filterMap_cons]
      exact ih
    | some s =>
      by_cases hs : s = ""
      · subst hs
        simp only [List.map_cons, List.filter_cons, hn, truthyName, bne_self_eq_false,
          Bool.false_eq_true, if_false, nonEmptyNames, List.filterMap_cons, if_pos rfl]
        exact ih
      · have ht : (s != "") = true := bne_iff_ne.mpr hs
        simp only [List.map_cons, List.filter_cons, hn, truthyName, ht, if_true,
          nonEmptyNames, List.filterMap_cons, if_neg hs, List.map_cons]
        rw [ih]
        rfl

/-- Claim C9 counterexample: at the concrete input of one industry whose
`industry_name` is null, the industries grid still renders a card for it, so
it is false that every component excludes industries with no associated name
from display. -/
theorem c9_counterexample :
    ¬ (∀ card ∈ (impactedIndustriesGrid [⟨5, none, none, []⟩]).getD [],
        card.name ≠ none ∧ card.name ≠ some "") := by
  decide

/-- Claim C9 (amended): the extraction step in `ReportCard` collects exactly
the non-null, non-empty `industry_name` values in original industry order;
but `ImpactedIndustriesGrid` renders every industry of its non-empty input
list, in order and without filtering, so a nameless industry is not excluded
from display there. -/
theorem c9_amended :
    (∀ r : ReportListItem,
      industryNames r = (nonEmptyNames (metadataIndustries r)).map some) ∧
    (∀ industries : List Industry, industries ≠ [] →
      impactedIndustriesGrid industries
        = some (industries.map (fun i => ⟨i.industry_name, i.impact_description⟩))) := by
  constructor
  · intro r
    exact filter_truthy_eq_nonEmpty (metadataIndustries r)
  · intro industries h
    unfold impactedIndustriesGrid
    rw [if_neg (by simpa using h)]

theorem c9_amended_witness :
    impactedIndustriesGrid [⟨5, none, none, []⟩] = some [⟨none, none⟩] :=
  c9_amended.2 [⟨5, none, none, []⟩] (by decide)

/-- Claim C10: at most the first three extracted industry names are rendered
as category tags, in original order; when n > 3 names are extracted, exactly
the first three are rendered followed by a remainder indicator n − 3, and
when n ≤ 3 no remainder indicator is rendered. -/
theorem c10_tag_overflow : ∀ r : ReportListItem,
    renderedTags r = (industryNames r).take 3 ∧
    (renderedTags r).length ≤ 3 ∧
    ((industryNames r).length > 3 →
      renderedOverflow r = some ((industryNames r).length - 3)) ∧
    ((industryNames r).length ≤ 3 → renderedOverflow r = none) := by
  intro r
  refine ⟨?_, ?_, ?_, ?_⟩
  · unfold renderedTags
    by_cases h : (industryNames r).length > 0
    · rw [if_pos h]
    · rw [if_neg h]
      have h0 : industryNames r = [] := List.length_eq_zero.mp (by omega)
      rw [h0]
      rfl
  · unfold renderedTags
    by_cases h : (industryNames r).length > 0
    · rw [if_pos h]
      rw [List.length_take]
      omega
    · rw [if_neg h]
      simp
  · intro h
    unfold renderedOverflow
    rw [if_pos (by omega), if_pos h]
  · intro h
    unfold renderedOverflow
    by_cases h0 : (industryNames r).length > 0
    · rw [if_pos h0, if_neg (by omega)]
    · rw [if_neg h0]

theorem c10_tag_overflow_witness :
    renderedOverflow
      (⟨1, "t", none, "2024-01-01", 4,
        some ⟨some [⟨some "a"⟩, ⟨some "b"⟩, ⟨some "c"⟩, ⟨some "d"⟩]⟩⟩ : ReportListItem)
      = some 1 :=
  (c10_tag_overflow
      ⟨1, "t", none, "2024-01-01", 4,
        some ⟨some [⟨some "a"⟩, ⟨some "b"⟩, ⟨some "c"⟩, ⟨some "d"⟩]⟩⟩).2.2.1 (by decide)

theorem getCategoryColor_eq_classifySpec :
    ∀ c : Option String, getCategoryColor c = classifySpec c := by
  intro c
  cases c with
  | none => rfl
  | some s =>
    have h1 : toLowerStr "반도체" = "반도체" := by decide
    have h2 : toLowerStr "2차전지" = "2차전지" := by decide
    have h3 : toLowerStr "금융" = "금융" := by decide
    have h4 : toLowerStr "게임" = "게임" := by decide
    simp only [getCategoryColor, classifySpec, ciIncludes, h1, h2, h3, h4]

/-- Claim C3: the category classifier agrees with the spec's case-insensitive
ordered keyword rule list (semiconductor/battery → green, finance → orange,
gaming → red, everything else — including null and the empty string — →
slate), first match wins. -/
theorem c3_classifier :
    (∀ c : Option String, getCategoryColor c = classifySpec c) ∧
    getCategoryColor none = "bg-slate-100 text-slate-700" ∧
    getCategoryColor (some "") = "bg-slate-100 text-slate-700" ∧
    getCategoryColor (some "우주항공") = "bg-slate-100 text-slate-700" :=
  ⟨getCategoryColor_eq_classifySpec, rfl, rfl, by decide⟩

/-- Claim C6: the category classifier is deterministic and side-effect-free —
it is a pure function of its input alone (equal inputs give equal outputs),
and its output ranges over the four fixed color buckets. -/
theorem c6_classifier_deterministic :
    (∀ c₁ c₂ : Option String, c₁ = c₂ → getCategoryColor c₁ = getCategoryColor c₂) ∧
    (∀ c : Option String,
      getCategoryColor c = "bg-green-100 text-green-700" ∨
      getCategoryColor c = "bg-orange-100 text-orange-700" ∨
      getCategoryColor c = "bg-red-100 text-red-700" ∨
      getCategoryColor c = "bg-slate-100 text-slate-700") := by
  constructor
  · intro c₁ c₂ h
    rw [h]
  · intro c
    rw [getCategoryColor_eq_classifySpec c]
    cases c with
    | none => right; right; right; rfl
    | some s =>
      simp only [classifySpec]
      split_ifs <;> simp

theorem c6_classifier_deterministic_witness :
    getCategoryColor (some "금융") = getCategoryColor (some "금융") :=
  c6_classifier_deterministic.1 (some "금융") (some "금융") rfl

theorem toList_append (a b : String) : (a ++ b).toList = a.toList ++ b.toList :=
  String.data_append a b

theorem rtAux_none_clean_append (txt : List Char) (h : '<' ∉ txt) (l : List Char) :
    rtAux none (txt ++ l) = txt ++ rtAux none l := by
  induction txt with
  | nil => rfl
  | cons c cs ih =>
    simp only [List.mem_cons, not_or] at h
    have hc : ¬ c = '<' := fun hcc => h.1 hcc.symm
    rw [List.cons_append, rtAux, if_neg hc, ih h.2, List.cons_append]

theorem rtAux_pending_gt (tag : List Char) (h : '>' ∉ tag) : ∀ (pending rest : List Char),
    rtAux (some pending) (tag ++ '>' :: rest) = rtAux none rest := by
  induction tag with
  | nil =>
    intro pending rest
    rw [List.nil_append, rtAux, if_pos rfl]
  | cons c cs ih =>
    intro pending rest
    simp only [List.mem_cons, not_or] at h
    have hc : ¬ c = '>' := fun hcc => h.1 hcc.symm
    rw [List.cons_append, rtAux, if_neg hc]
    exact ih h.2 (c :: pending) rest

theorem removeTags_renderTagged : ∀ (segs : List (String × String)) (last : String),
    (∀ p ∈ segs, '<' ∉ p.1.toList ∧ '>' ∉ p.2.toList) → '<' ∉ last.toList →
    removeTags (renderTagged segs last).toList = (textConcat segs last).toList := by
  intro segs
  induction segs with
  | nil =>
    intro last _ hlast
    have := rtAux_none_clean_append last.toList hlast []
    simpa [removeTags, renderTagged, textConcat, rtAux] using this
  | cons p rest ih =>
    intro last hseg hlast
    obtain ⟨txt, tag⟩ := p
    have hp := hseg (txt, tag) (List.mem_cons_self _ _)
    have hrest : ∀ q ∈ rest, '<' ∉ q.1.toList ∧ '>' ∉ q.2.toList :=
      fun q hq => hseg q (List.mem_cons_of_mem _ hq)
    have hlist : (renderTagged ((txt, tag) :: rest) last).toList
        = txt.toList ++ '<' :: (tag.toList ++ '>' :: (renderTagged rest last).toList) := by
      rw [renderTagged]
      rw [toList_append, toList_append, toList_append, toList_append]
      simp [List.append_assoc]
    rw [removeTags, hlist, rtAux_none_clean_append txt.toList hp.1, rtAux, if_pos rfl,
      rtAux_pending_gt tag.toList hp.2]
    have htext : (textConcat ((txt, tag) :: rest) last).toList
        = txt.toList ++ (textConcat rest last).toList := by
      rw [textConcat, List.map_cons, List.foldr_cons, toList_append]
      rfl
    rw [htext, ← ih last hrest hlast, removeTags]

/-- Claim C4: the sanitizer removes every substring matching `<...>` (a `<`
up to the next `>`) and then trims surrounding whitespace; null input yields
the empty string, and `strip("<p>안녕 <b>세계</b></p>") = "안녕 세계"`.  The
general removal property is stated over every well-formed interleaving of
tag-free text segments and `>`-free tag bodies. -/
theorem c4_strip_tags :
    stripHtmlTags none = "" ∧
    stripHtmlTags (some "<p>안녕 <b>세계</b></p>") = "안녕 세계" ∧
    (∀ (segs : List (String × String)) (last : String),
      (∀ p ∈ segs, '<' ∉ p.1.toList ∧ '>' ∉ p.2.toList) → '<' ∉ last.toList →
      stripHtmlTags (some (renderTagged segs last))
        = String.mk (trimChars (textConcat segs last).toList)) := by
  refine ⟨rfl, by decide, ?_⟩
  intro segs last hseg hlast
  by_cases h0 : renderTagged segs last = ""
  · simp only [stripHtmlTags, if_pos h0]
    have hm := removeTags_renderTagged segs last hseg hlast
    rw [h0] at hm
    have h2 : (textConcat segs last).toList = [] := by
      rw [← hm]
      rfl
    rw [h2]
    rfl
  · simp only [stripHtmlTags, if_neg h0]
    rw [removeTags_renderTagged segs last hseg hlast]

theorem c4_strip_tags_witness :
    stripHtmlTags (some (renderTagged [("안녕 ", "b")] "세계"))
      = String.mk (trimChars (textConcat [("안녕 ", "b")] "세계").toList) :=
  c4_strip_tags.2.2 [("안녕 ", "b")] "세계" (by decide) (by decide)

/-- Claim C2 counterexample: `formatDate` reads the calendar fields through
the runtime's local timezone, so in a zone nine hours west of UTC (offset
−540 minutes) the input `"2024-01-15T08:00:00Z"` is formatted as
`"2024.01.14"`, not the `"2024.01.15"` written in the value itself. -/
theorem c2_counterexample :
    formatDate "2024-01-15T08:00:00Z" (-540) = some "2024.01.14" ∧
    ("2024.01.14" : String) ≠ "2024.01.15" := by
  constructor
  · decide
  · decide

/-! Helper lemmas for the date-formatting biconditional: the calendar-field
bounds produced by the parser, injectivity of the month/day fields of the
formatted string, and the fact that one calendar-day step always changes the
month or the day. -/

theorem daysInMonth_le31 (y m : Nat) : daysInMonth y m ≤ 31 := by
  unfold daysInMonth
  split_ifs <;> omega

theorem padStart2_data_inj :
    ∀ a, a < 32 → ∀ b, b < 32 → (padStart2 a).data = (padStart2 b).data → a = b := by
  decide

theorem padStart2_data_len : ∀ a, a < 32 → (padStart2 a).data.length = 2 := by
  decide

theorem formatCal_month_day_inj (d₁ d₂ : CalDate) (h1m : d₁.month < 32) (h1d : d₁.day < 32)
    (h2m : d₂.month < 32) (h2d : d₂.day < 32) (h : formatCal d₁ = formatCal d₂) :
    d₁.month = d₂.month ∧ d₁.day = d₂.day := by
  have hd : (formatCal d₁).data = (formatCal d₂).data := congrArg String.data h
  simp only [formatCal, String.data_append] at hd
  obtain ⟨h1, hday⟩ := List.append_inj' hd
    (by rw [padStart2_data_len _ h1d, padStart2_data_len _ h2d])
  obtain ⟨h2, _⟩ := List.append_inj' h1 rfl
  obtain ⟨_, hmon⟩ := List.append_inj' h2
    (by rw [padStart2_data_len _ h1m, padStart2_data_len _ h2m])
  exact ⟨padStart2_data_inj _ h1m _ h2m hmon, padStart2_data_inj _ h1d _ h2d hday⟩

theorem nextDay_ne_month_day (d : CalDate) (hm : d.month ≤ 12) :
    (nextDay d).month ≠ d.month ∨ (nextDay d).day ≠ d.day := by
  unfold nextDay
  split_ifs with h1 h2
  · right
    simp only []
    omega
  · left
    simp only []
    omega
  · left
    simp only []
    omega

theorem prevDay_ne_month_day (d : CalDate) (hm : 1 ≤ d.month) :
    (prevDay d).month ≠ d.month ∨ (prevDay d).day ≠ d.day := by
  unfold prevDay
  split_ifs with h1 h2
  · right
    simp only []
    omega
  · left
    simp only []
    omega
  · left
    simp only []
    omega

theorem nextDay_bounds (d : CalDate) (hm : d.month ≤ 12)
    (_hd : d.day ≤ daysInMonth d.year d.month) :
    (nextDay d).month < 32 ∧ (nextDay d).day < 32 := by
  have h31 := daysInMonth_le31 d.year d.month
  unfold nextDay
  split_ifs with h1 h2 <;> constructor <;> simp only [] <;> omega

theorem prevDay_bounds (d : CalDate) (hm : d.month ≤ 12)
    (hd : d.day ≤ daysInMonth d.year d.month) :
    (prevDay d).month < 32 ∧ (prevDay d).day < 32 := by
  have h31 := daysInMonth_le31 d.year d.month
  have h31' := daysInMonth_le31 d.year (d.month - 1)
  unfold prevDay
  split_ifs with h1 h2 <;> constructor <;> simp only [] <;> omega

theorem parseDatePart_bounds (l : List Char) (cd : CalDate)
    (h : parseDatePart l = some cd) :
    1 ≤ cd.month ∧ cd.month ≤ 12 ∧ 1 ≤ cd.day ∧ cd.day ≤ daysInMonth cd.year cd.month := by
  unfold parseDatePart at h
  split at h <;> try exact Option.noConfusion h
  split at h <;> try exact Option.noConfusion h
  rw [Option.ite_none_right_eq_some] at h
  obtain ⟨hcond, heq⟩ := h
  cases heq
  exact hcond

theorem parseTimePart_bounds (l : List Char) (p : Nat × Nat)
    (h : parseTimePart l = some p) : p.1 ≤ 23 ∧ p.2 ≤ 59 := by
  unfold parseTimePart at h
  split at h <;> try exact Option.noConfusion h
  · split at h <;> try exact Option.noConfusion h
    rw [Option.ite_none_right_eq_some] at h
    obtain ⟨hcond, heq⟩ := h
    cases heq
    exact hcond
  · split at h <;> try exact Option.noConfusion h
    rw [Option.ite_none_right_eq_some] at h
    obtain ⟨hcond, heq⟩ := h
    cases heq
    exact ⟨hcond.1, hcond.2.1⟩

theorem parseISO_bounds (s : String) (d : CalDate) (hh mm : Nat)
    (hp : parseISO s = some (d, hh, mm)) :
    hh ≤ 23 ∧ mm ≤ 59 ∧ 1 ≤ d.month ∧ d.month ≤ 12 ∧ 1 ≤ d.day ∧
      d.day ≤ daysInMonth d.year d.month := by
  unfold parseISO at hp
  split at hp <;> try exact Option.noConfusion hp
  · rw [Option.map_eq_some'] at hp
    obtain ⟨cd, hcd, heq⟩ := hp
    cases heq
    have hb := parseDatePart_bounds _ _ hcd
    exact ⟨by omega, by omega, hb.1, hb.2.1, hb.2.2.1, hb.2.2.2⟩
  · split at hp <;> try exact Option.noConfusion hp
    split at hp <;> try exact Option.noConfusion hp
    rename_i cd hmp hcd hhm
    injection hp with hpair
    have hc1 : cd = d := congrArg Prod.fst hpair
    have hc2 : hmp = (hh, mm) := congrArg Prod.snd hpair
    subst hc1
    have ht := parseTimePart_bounds _ _ hhm
    rw [hc2] at ht
    have hb := parseDatePart_bounds _ _ hcd
    exact ⟨ht.1, ht.2, hb.1, hb.2.1, hb.2.2.1, hb.2.2.2⟩

/-- Claim C2 (amended): `formatDate` formats the parsed instant's calendar
date in the runtime's local timezone (an offset in minutes; every real
timezone offset is strictly between −1440 and 1440); the result is
`YYYY.MM.DD` of the calendar components written in the input exactly when the
offset keeps the instant within the same calendar day, i.e. if and only if
`0 ≤ 60·hh + mm + offset < 1440`; in particular at UTC+9 (the deployment
zone) `format("2024-01-15T08:00:00Z") = "2024.01.15"`. -/
theorem c2_format_local : ∀ (s : String) (d : CalDate) (hh mm : Nat) (off : Int),
    parseISO s = some (d, hh, mm) →
    -1440 < off → off < 1440 →
    (formatDate s off = some (formatCal d) ↔
      0 ≤ (hh : Int) * 60 + (mm : Int) + off ∧ (hh : Int) * 60 + (mm : Int) + off < 1440) := by
  intro s d hh mm off hp hlo hhi
  obtain ⟨hhh, hmm, hmon1, hmon2, hday1, hday2⟩ := parseISO_bounds s d hh mm hp
  have hfd : formatDate s off
      = some (formatCal (shiftDays d (((hh : Int) * 60 + (mm : Int) + off).fdiv 1440))) := by
    unfold formatDate
    rw [hp]
  rw [hfd, Int.fdiv_eq_ediv _ (by norm_num)]
  have h31 := daysInMonth_le31 d.year d.month
  have hm32 : d.month < 32 := by omega
  have hd32 : d.day < 32 := by omega
  by_cases hneg : (hh : Int) * 60 + (mm : Int) + off < 0
  · have he : ((hh : Int) * 60 + (mm : Int) + off) / 1440 = -1 := by omega
    rw [he, show shiftDays d (-1) = prevDay d from rfl]
    apply iff_of_false
    · intro hc
      have hceq : formatCal (prevDay d) = formatCal d := Option.some.inj hc
      have hb := prevDay_bounds d hmon2 hday2
      have hij := formatCal_month_day_inj (prevDay d) d hb.1 hb.2 hm32 hd32 hceq
      rcases prevDay_ne_month_day d hmon1 with hne | hne
      · exact hne hij.1
      · exact hne hij.2
    · rintro ⟨h1, _⟩
      omega
  · by_cases hbig : 1440 ≤ (hh : Int) * 60 + (mm : Int) + off
    · have he : ((hh : Int) * 60 + (mm : Int) + off) / 1440 = 1 := by omega
      rw [he, show shiftDays d 1 = nextDay d from rfl]
      apply iff_of_false
      · intro hc
        have hceq : formatCal (nextDay d) = formatCal d := Option.some.inj hc
        have hb := nextDay_bounds d hmon2 hday2
        have hij := formatCal_month_day_inj (nextDay d) d hb.1 hb.2 hm32 hd32 hceq
        rcases nextDay_ne_month_day d hmon2 with hne | hne
        · exact hne hij.1
        · exact hne hij.2
      · rintro ⟨_, h2⟩
        omega
    · have he : ((hh : Int) * 60 + (mm : Int) + off) / 1440 = 0 := by omega
      rw [he, show shiftDays d 0 = d from rfl]
      exact iff_of_true rfl ⟨by omega, by omega⟩

theorem c2_format_local_witness :
    formatDate "2024-01-15T08:00:00Z" 540 = some "2024.01.15" := by
  have h := (c2_format_local "2024-01-15T08:00:00Z" ⟨2024, 1, 15⟩ 8 0 540
    (by decide) (by decide) (by decide)).mpr ⟨by decide, by decide⟩
  exact h.trans (by decide)

end Jtj
